import Mathlib

set_option maxRecDepth 100000

/-!
# Verification of `frequency_sketch.h` (w-tinylfu)

Shallow embedding of the `FrequencySketch<T>` class from
`src/frequency_sketch.h`.  The sketch stores a table of 64-bit slots
(`std::vector<uint64_t> m_table`), each slot holding sixteen 4-bit
saturating counters, plus an access tally (`int m_size`).

Modelling choices:
* 64-bit slot values are `Nat` with explicit `% 2 ^ 64` where the C++
  performs wrap-around arithmetic; the table is a `List Nat`.
* `m_size` starts at 0 and is only ever incremented by 1 or halved, so it
  is never negative and is modelled as a `Nat`.
* Elements of the generic type `T` enter the sketch only through
  `detail::get_hash`, an external collaborator producing a `uint32_t`
  (file `detail.h`, not part of `src/`); an element is therefore modelled
  by its 32-bit hash value, a `Nat`.
* Table reads use `List.getD · 0` and writes use `List.set`; every index
  produced by `get_table_index` is below the table length whenever the
  table is nonempty, which construction guarantees.
-/

/-- State of `FrequencySketch<T>`: the counter table (`m_table`, one `Nat`
per 64-bit slot) and the access tally (`m_size`). -/
structure FrequencySketch where
  m_table : List Nat
  m_size : Nat
deriving DecidableEq, Repr

/-- The four 64-bit seed constants of `get_table_index`. -/
def SEEDS : List Nat :=
  [0xc3a5c85c97cb3127, 0xb492b66fbe98f273, 0x9ae16a3b2f90404f, 0xcbf29ce484222325]

/-- `get_table_index`: `h = SEEDS[i] * hash; h += h >> 32; return h & (m_table.size() - 1)`
(all arithmetic on `uint64_t`, hence the `% 2 ^ 64`). -/
def get_table_index (s : FrequencySketch) (hash : Nat) (counter_index : Nat) : Nat :=
  let h0 := SEEDS.getD counter_index 0 * hash % 2 ^ 64
  let h := (h0 + h0 >>> 32) % 2 ^ 64
  h &&& (s.m_table.length - 1)

/-- `get_offset_multiplier`: `(hash & 3) << 2`. -/
def get_offset_multiplier (hash : Nat) : Nat :=
  (hash &&& 3) <<< 2

/-- `get_counter_offset`: `(get_offset_multiplier(hash) + counter_index) << 2`. -/
def get_counter_offset (hash : Nat) (counter_index : Nat) : Nat :=
  (get_offset_multiplier hash + counter_index) <<< 2

/-- `get_count`: `(m_table[index] >> offset) & 0xf`. -/
def get_count (s : FrequencySketch) (hash : Nat) (counter_index : Nat) : Nat :=
  let index := get_table_index s hash counter_index
  let offset := get_counter_offset hash counter_index
  (s.m_table.getD index 0 >>> offset) &&& 0xf

/-- `get_frequency`: starts from `unsigned(-1) >> 1 = 0x7FFFFFFF` and takes
the minimum with `get_count(hash, i)` for `i = 0, 1, 2, 3`. -/
def get_frequency (s : FrequencySketch) (hash : Nat) : Nat :=
  let f0 := 0x7FFFFFFF
  let f1 := min f0 (get_count s hash 0)
  let f2 := min f1 (get_count s hash 1)
  let f3 := min f2 (get_count s hash 2)
  min f3 (get_count s hash 3)

/-- `has`: `get_frequency(t) > 0`. -/
def FrequencySketch.has (s : FrequencySketch) (hash : Nat) : Bool :=
  decide (get_frequency s hash > 0)

/-- `can_increment_counter`: `(m_table[table_index] & (0xf << offset)) != (0xf << offset)`. -/
def can_increment_counter (s : FrequencySketch) (table_index : Nat) (offset : Nat) : Bool :=
  decide ((s.m_table.getD table_index 0 &&& (0xf <<< offset)) ≠ 0xf <<< offset)

/-- `try_increment_at`: if the addressed counter is below 15, add
`1 << offset` to its slot (`uint64_t` addition) and report `true`;
otherwise leave the table unchanged and report `false`. -/
def try_increment_at (s : FrequencySketch) (hash : Nat) (counter_index : Nat) :
    FrequencySketch × Bool :=
  let table_index := get_table_index s hash counter_index
  let offset := get_counter_offset hash counter_index
  if can_increment_counter s table_index offset then
    ({ s with
        m_table :=
          s.m_table.set table_index
            ((s.m_table.getD table_index 0 + 1 <<< offset) % 2 ^ 64) },
      true)
  else
    (s, false)

/-- The loop of `record_access`: `for i in 0..3: was_added |= try_increment_at(hash, i)`
(every iteration runs; `|=` does not short-circuit). Returns the state after
the four attempts together with `was_added`. -/
def increment_all (s : FrequencySketch) (hash : Nat) : FrequencySketch × Bool :=
  let r0 := try_increment_at s hash 0
  let r1 := try_increment_at r0.1 hash 1
  let r2 := try_increment_at r1.1 hash 2
  let r3 := try_increment_at r2.1 hash 3
  (r3.1, r0.2 || r1.2 || r2.2 || r3.2)

/-- `halve`: `counters = (counters >> 1) & 0x7777777777777777`. -/
def halve (counters : Nat) : Nat :=
  (counters >>> 1) &&& 0x7777777777777777

/-- `reset`: halve every slot of the table and divide `m_size` by 2. -/
def reset (s : FrequencySketch) : FrequencySketch :=
  { m_table := s.m_table.map halve, m_size := s.m_size / 2 }

/-- `get_sampling_size`: `m_table.size() * 10`. -/
def get_sampling_size (s : FrequencySketch) : Nat :=
  s.m_table.length * 10

/-- `record_access`: run the four increment attempts; if any counter was
incremented, increment `m_size`, and when the incremented tally equals the
sampling size, run `reset` (`if(was_added && (++m_size == get_sampling_size())) reset();`). -/
def record_access (s : FrequencySketch) (hash : Nat) : FrequencySketch :=
  let r := increment_all s hash
  if r.2 then
    let s' := { r.1 with m_size := r.1.m_size + 1 }
    if s'.m_size = get_sampling_size s' then reset s' else s'
  else
    r.1

/-- The condition under which a `record_access` call runs the aging pass:
some counter was incremented and the incremented tally equals the sampling
size (read off the guard `was_added && (++m_size == get_sampling_size())`). -/
def triggers_reset (s : FrequencySketch) (hash : Nat) : Bool :=
  (increment_all s hash).2 &&
    decide ((increment_all s hash).1.m_size + 1 = get_sampling_size (increment_all s hash).1)

/-- Modelled from the spec: `detail::get_nearest_power_of_two` lives in
`detail.h`, which is not part of `src/`.  Per the spec (§6): "given a
positive integer capacity, returns the smallest power of two ≥ capacity".
Search doubling from 1; 64 doubling steps cover every `uint64_t`-sized
request. -/
def pow2_search (n : Nat) : Nat → Nat → Nat
  | 0, acc => acc
  | fuel + 1, acc => if n ≤ acc then acc else pow2_search n fuel (2 * acc)

/-- Modelled from the spec: "the smallest power of two ≥ capacity"
(`detail::get_nearest_power_of_two` from `detail.h`, absent from `src/`). -/
def get_nearest_power_of_two (capacity : Nat) : Nat :=
  pow2_search capacity 64 1

/-- `std::vector::resize(n)` semantics: keep the first `n` elements,
truncating if the vector is longer, appending value-initialised (zero)
elements if it is shorter. Existing elements are retained. -/
def vector_resize (l : List Nat) (n : Nat) : List Nat :=
  l.take n ++ List.replicate (n - l.length) 0

/-- `change_capacity`: throw `std::invalid_argument` when `capacity <= 0`
(before touching any state); otherwise `m_table.resize(get_nearest_power_of_two(capacity))`
and `m_size = 0`.  The argument is a C++ `int`, hence `Int`. -/
def change_capacity (s : FrequencySketch) (capacity : Int) : Except String FrequencySketch :=
  if capacity ≤ 0 then
    .error "FrequencySketch capacity must be larger than 0"
  else
    .ok { m_table := vector_resize s.m_table (get_nearest_power_of_two capacity.toNat),
          m_size := 0 }

/-- A `change_capacity` call as the caller observes it: the C++ `throw`
happens before any mutation, so on error the object is left exactly as it
was; the `Bool` records whether the call threw. -/
def change_capacity_run (s : FrequencySketch) (capacity : Int) : FrequencySketch × Bool :=
  match change_capacity s capacity with
  | .error _ => (s, true)
  | .ok s' => (s', false)

/-- The constructor `FrequencySketch(int capacity)`: a default-constructed
(empty) table, then `change_capacity(capacity)`. -/
def FrequencySketch.init (capacity : Int) : Except String FrequencySketch :=
  change_capacity { m_table := [], m_size := 0 } capacity

/-- Iterate `record_access` with a fixed hash `k` times. -/
def run_accesses (s : FrequencySketch) (hash : Nat) : Nat → FrequencySketch
  | 0 => s
  | k + 1 => run_accesses (record_access s hash) hash k

/-- Value of the `j`-th 4-bit counter of a 64-bit slot value. -/
def nibble (v : Nat) (j : Nat) : Nat :=
  (v >>> (4 * j)) &&& 0xf

/-- Well-formedness maintained by construction: the table is nonempty
(construction always allocates at least one slot) and every slot value
fits in 64 bits. -/
def WF (s : FrequencySketch) : Prop :=
  0 < s.m_table.length ∧ ∀ v ∈ s.m_table, v < 2 ^ 64

/-- The index (0–15) of the 4-bit counter within its 64-bit slot:
`get_counter_offset hash i = 4 * counter_nibble_index hash i`. -/
def counter_nibble_index (hash counter_index : Nat) : Nat :=
  get_offset_multiplier hash + counter_index

/-- "Smallest power of two ≥ n": what the spec promises of
`detail::get_nearest_power_of_two`. -/
def IsNearestPow2 (n r : Nat) : Prop :=
  (∃ k, r = 2 ^ k) ∧ n ≤ r ∧ ∀ m, n ≤ 2 ^ m → r ≤ 2 ^ m

/-- Apply `record_access` for each hash of a list, in order. -/
def run_trace (s : FrequencySketch) : List Nat → FrequencySketch
  | [] => s
  | h :: t => run_trace (record_access s h) t

/-- Number of calls in the trace that incremented at least one counter. -/
def count_successful (s : FrequencySketch) : List Nat → Nat
  | [] => 0
  | h :: t =>
    (if (increment_all s h).2 then 1 else 0) + count_successful (record_access s h) t

/-- Number of calls in the trace that ran the aging pass. -/
def trace_resets (s : FrequencySketch) : List Nat → Nat
  | [] => 0
  | h :: t => (if triggers_reset s h then 1 else 0) + trace_resets (record_access s h) t

/-! ## Bitwise-to-arithmetic bridge lemmas -/

theorem and_fifteen (x : Nat) : x &&& 15 = x % 16 := by
  have h := Nat.and_pow_two_sub_one_eq_mod x 4
  norm_num at h
  exact h

theorem and_seven (x : Nat) : x &&& 7 = x % 8 := by
  have h := Nat.and_pow_two_sub_one_eq_mod x 3
  norm_num at h
  exact h

theorem and_shiftRight (x y k : Nat) : (x &&& y) >>> k = (x >>> k) &&& (y >>> k) := by
  apply Nat.eq_of_testBit_eq
  intro i
  simp [Nat.testBit_and, Nat.testBit_shiftRight]

theorem and_shiftLeft_mask (x y k : Nat) : x &&& (y <<< k) = ((x >>> k) &&& y) <<< k := by
  apply Nat.eq_of_testBit_eq
  intro i
  by_cases h : k ≤ i
  · simp [Nat.testBit_and, Nat.testBit_shiftLeft, Nat.testBit_shiftRight, h,
      Nat.add_sub_cancel' h]
  · simp [Nat.testBit_and, Nat.testBit_shiftLeft, h]

theorem shiftLeft_inj (a b k : Nat) : a <<< k = b <<< k ↔ a = b := by
  rw [Nat.shiftLeft_eq, Nat.shiftLeft_eq]
  exact Nat.mul_left_inj (Nat.pow_pos (by norm_num : (0 : Nat) < 2)).ne'

theorem nibble_eq (v j : Nat) : nibble v j = v / 2 ^ (4 * j) % 16 := by
  simp [nibble, Nat.shiftRight_eq_div_pow, and_fifteen]

theorem nibble_lt (v j : Nat) : nibble v j < 16 := by
  rw [nibble_eq]
  omega

set_option maxHeartbeats 1000000 in
theorem M_sub_nibble : ∀ j < 16, (0x7777777777777777 >>> (4 * j)) &&& 15 = 7 := by decide

theorem nibble_halve (v j : Nat) (hj : j < 16) : nibble (halve v) j = nibble v j / 2 := by
  have h1 : nibble (halve v) j = v / 2 ^ (4 * j) / 2 % 8 := by
    unfold nibble halve
    rw [and_shiftRight, Nat.and_assoc, M_sub_nibble j hj, ← Nat.shiftRight_add, and_seven,
      Nat.shiftRight_eq_div_pow]
    have h2 : 2 ^ (1 + 4 * j) = 2 ^ (4 * j) * 2 := by ring
    rw [h2, ← Nat.div_div_eq_div_mul]
  rw [h1, nibble_eq]
  generalize v / 2 ^ (4 * j) = w
  omega

theorem pow16_pos (j : Nat) : 0 < 16 ^ j :=
  Nat.pow_pos (by norm_num)

theorem two_pow_4mul (j : Nat) : (2 : Nat) ^ (4 * j) = 16 ^ j := by
  rw [pow_mul]
  norm_num

theorem nibble_eq16 (v j : Nat) : nibble v j = v / 16 ^ j % 16 := by
  rw [nibble_eq, two_pow_4mul]

theorem div_add_small (a b c : Nat) (hc : 0 < c) (h : a % c + b < c) :
    (a + b) / c = a / c ∧ (a + b) % c = a % c + b := by
  have hsplit : a + b = a % c + b + c * (a / c) := by
    conv_lhs => rw [← Nat.div_add_mod a c]
    ring
  constructor
  · rw [hsplit, Nat.add_mul_div_left _ _ hc, Nat.div_eq_of_lt h, Nat.zero_add]
  · rw [hsplit, Nat.add_mul_mod_self_left, Nat.mod_eq_of_lt h]

/-- The low sixteen-adic digits of `v` below digit `j + 1`, with digit `j`
below 15, leave room for one more `16 ^ j`. -/
theorem mod_sq_lt (v j : Nat) (hlt : nibble v j < 15) :
    v % 16 ^ (j + 1) + 16 ^ j < 16 ^ (j + 1) := by
  have h1 : v % 16 ^ (j + 1) / 16 ^ j = nibble v j := by
    rw [nibble_eq16, pow_succ]
    exact Nat.mod_mul_right_div_self v (16 ^ j) 16
  have h2 : v % 16 ^ (j + 1) / 16 ^ j < 15 := h1 ▸ hlt
  have h3 : v % 16 ^ (j + 1) < 15 * 16 ^ j :=
    (Nat.div_lt_iff_lt_mul (pow16_pos j)).mp h2
  have h4 : 16 ^ (j + 1) = 16 ^ j * 16 := pow_succ 16 j
  omega

theorem nibble_add_pow (v j : Nat) (hj : j < 16) (hv : v < 2 ^ 64) (hlt : nibble v j < 15) :
    v + 2 ^ (4 * j) < 2 ^ 64 ∧
    nibble (v + 2 ^ (4 * j)) j = nibble v j + 1 ∧
    ∀ k, k ≠ j → nibble (v + 2 ^ (4 * j)) k = nibble v k := by
  rw [two_pow_4mul]
  have hr := mod_sq_lt v j hlt
  obtain ⟨hdiv, hmod⟩ :=
    div_add_small v (16 ^ j) (16 ^ (j + 1)) (pow16_pos (j + 1)) hr
  refine ⟨?_, ?_, ?_⟩
  · -- no overflow: the quotient above digit j is untouched and bounded
    have h64 : (2 : Nat) ^ 64 = 16 ^ 16 := by norm_num
    have hpow : 16 ^ (j + 1) * 16 ^ (15 - j) = 16 ^ 16 := by
      rw [← pow_add]
      congr 1
      omega
    have hq : v / 16 ^ (j + 1) < 16 ^ (15 - j) :=
      Nat.div_lt_of_lt_mul (by rw [hpow, ← h64]; exact hv)
    have hstep : v + 16 ^ j =
        16 ^ (j + 1) * (v / 16 ^ (j + 1)) + (v % 16 ^ (j + 1) + 16 ^ j) := by
      conv_lhs => rw [← Nat.div_add_mod v (16 ^ (j + 1))]
      ring
    calc v + 16 ^ j
        < 16 ^ (j + 1) * (v / 16 ^ (j + 1)) + 16 ^ (j + 1) := by omega
      _ = 16 ^ (j + 1) * (v / 16 ^ (j + 1) + 1) := by ring
      _ ≤ 16 ^ (j + 1) * 16 ^ (15 - j) := Nat.mul_le_mul_left _ hq
      _ = 2 ^ 64 := by rw [hpow, h64]
  · -- the addressed counter goes up by one
    simp only [nibble_eq16] at hlt ⊢
    rw [Nat.add_div_right v (pow16_pos j)]
    generalize v / 16 ^ j = w at hlt ⊢
    omega
  · -- every other counter in the slot is untouched
    intro k hne
    rcases Nat.lt_or_ge k j with hk | hk
    · -- digits below j: we added a multiple of 16 ^ (k + 1)
      have hsplit : 16 ^ j = 16 ^ k * (16 * 16 ^ (j - k - 1)) := by
        rw [← mul_assoc, ← pow_succ, ← pow_add]
        congr 1
        omega
      rw [nibble_eq16, nibble_eq16, hsplit, Nat.add_mul_div_left v _ (pow16_pos k),
        Nat.add_mul_mod_self_left]
    · -- digits above j: the quotient by 16 ^ (j + 1) is unchanged
      have hkj : j < k := lt_of_le_of_ne hk (Ne.symm hne)
      have hsplit : 16 ^ (j + 1) * 16 ^ (k - j - 1) = 16 ^ k := by
        rw [← pow_add]
        congr 1
        omega
      rw [nibble_eq16, nibble_eq16, ← hsplit, ← Nat.div_div_eq_div_mul,
        ← Nat.div_div_eq_div_mul, hdiv]

/-! ## Counter addressing -/

theorem get_counter_offset_eq (hash i : Nat) :
    get_counter_offset hash i = 4 * counter_nibble_index hash i := by
  unfold get_counter_offset counter_nibble_index
  rw [Nat.shiftLeft_eq]
  ring

theorem counter_nibble_index_lt (hash i : Nat) (hi : i < 4) :
    counter_nibble_index hash i < 16 := by
  unfold counter_nibble_index get_offset_multiplier
  have h : hash &&& 3 ≤ 3 := Nat.and_le_right
  rw [Nat.shiftLeft_eq]
  omega

theorem get_count_eq_nibble (s : FrequencySketch) (hash i : Nat) :
    get_count s hash i =
      nibble (s.m_table.getD (get_table_index s hash i) 0) (counter_nibble_index hash i) := by
  unfold get_count nibble
  rw [get_counter_offset_eq]

theorem get_count_lt (s : FrequencySketch) (hash i : Nat) : get_count s hash i < 16 := by
  rw [get_count_eq_nibble]
  exact nibble_lt _ _

theorem get_table_index_lt (s : FrequencySketch) (hash i : Nat)
    (h : 0 < s.m_table.length) : get_table_index s hash i < s.m_table.length := by
  simp only [get_table_index]
  exact Nat.lt_of_le_of_lt Nat.and_le_right (Nat.sub_lt h Nat.one_pos)

theorem get_table_index_congr (s s' : FrequencySketch) (hash i : Nat)
    (h : s'.m_table.length = s.m_table.length) :
    get_table_index s' hash i = get_table_index s hash i := by
  simp only [get_table_index, h]

/-- `get_count` of a sketch whose table was replaced by an equal-length list. -/
theorem get_count_table (s : FrequencySketch) (l : List Nat)
    (hl : l.length = s.m_table.length) (hash i : Nat) :
    get_count { s with m_table := l } hash i =
      nibble (l.getD (get_table_index s hash i) 0) (counter_nibble_index hash i) := by
  rw [get_count_eq_nibble,
    get_table_index_congr s { s with m_table := l } hash i hl]

/-! ## List access helpers -/

theorem WF_slot_lt (s : FrequencySketch) (hwf : WF s) (a : Nat) :
    s.m_table.getD a 0 < 2 ^ 64 := by
  rcases Nat.lt_or_ge a s.m_table.length with h | h
  · rw [List.getD_eq_getElem s.m_table 0 h]
    exact hwf.2 _ (List.getElem_mem h)
  · rw [List.getD_eq_default _ _ h]
    norm_num

theorem getD_set_self (l : List Nat) (i v : Nat) (h : i < l.length) :
    (l.set i v).getD i 0 = v := by
  simp [List.getD_eq_getElem?_getD, List.getElem?_set_self, h]

theorem getD_set_ne (l : List Nat) (i j v : Nat) (h : i ≠ j) :
    (l.set i v).getD j 0 = l.getD j 0 := by
  simp [List.getD_eq_getElem?_getD, List.getElem?_set_ne h]

/-! ## Specification of a single counter increment -/

theorem can_increment_iff (s : FrequencySketch) (idx j : Nat) :
    can_increment_counter s idx (4 * j) = true ↔
      nibble (s.m_table.getD idx 0) j ≠ 15 := by
  unfold can_increment_counter
  rw [decide_eq_true_eq, and_shiftLeft_mask]
  unfold nibble
  exact not_congr (shiftLeft_inj _ _ _)

theorem try_increment_pos (s : FrequencySketch) (hash i : Nat)
    (h : nibble (s.m_table.getD (get_table_index s hash i) 0) (counter_nibble_index hash i) ≠ 15) :
    try_increment_at s hash i =
      ({ s with
          m_table := s.m_table.set (get_table_index s hash i)
            ((s.m_table.getD (get_table_index s hash i) 0 +
              2 ^ (4 * counter_nibble_index hash i)) % 2 ^ 64) },
        true) := by
  simp only [try_increment_at, get_counter_offset_eq]
  rw [if_pos ((can_increment_iff s _ _).mpr h), Nat.shiftLeft_eq, Nat.one_mul]

theorem try_increment_neg (s : FrequencySketch) (hash i : Nat)
    (h : nibble (s.m_table.getD (get_table_index s hash i) 0) (counter_nibble_index hash i) = 15) :
    try_increment_at s hash i = (s, false) := by
  simp only [try_increment_at, get_counter_offset_eq]
  rw [if_neg]
  intro hcan
  exact (can_increment_iff s _ _).mp hcan h

theorem try_increment_spec (s : FrequencySketch) (hash i : Nat) (hwf : WF s) (hi : i < 4) :
    (try_increment_at s hash i).1.m_table.length = s.m_table.length ∧
    (try_increment_at s hash i).1.m_size = s.m_size ∧
    WF (try_increment_at s hash i).1 ∧
    (get_count s hash i < 15 →
      (try_increment_at s hash i).2 = true ∧
      get_count (try_increment_at s hash i).1 hash i = get_count s hash i + 1) ∧
    (get_count s hash i = 15 → try_increment_at s hash i = (s, false)) ∧
    (∀ a b, a ≠ get_table_index s hash i ∨ b ≠ counter_nibble_index hash i →
      nibble ((try_increment_at s hash i).1.m_table.getD a 0) b =
        nibble (s.m_table.getD a 0) b) := by
  have hjlt : counter_nibble_index hash i < 16 := counter_nibble_index_lt hash i hi
  have hidxlt : get_table_index s hash i < s.m_table.length := get_table_index_lt s hash i hwf.1
  have hvlt : s.m_table.getD (get_table_index s hash i) 0 < 2 ^ 64 := WF_slot_lt s hwf _
  have hcount := get_count_eq_nibble s hash i
  by_cases hsat : nibble (s.m_table.getD (get_table_index s hash i) 0)
      (counter_nibble_index hash i) = 15
  · rw [try_increment_neg s hash i hsat]
    refine ⟨rfl, rfl, hwf, ?_, fun _ => rfl, fun a b _ => rfl⟩
    intro hlt
    rw [hcount, hsat] at hlt
    omega
  · have hlt15 : nibble (s.m_table.getD (get_table_index s hash i) 0)
        (counter_nibble_index hash i) < 15 := by
      have := nibble_lt (s.m_table.getD (get_table_index s hash i) 0)
        (counter_nibble_index hash i)
      omega
    obtain ⟨hov, hinc, hframe⟩ := nibble_add_pow _ _ hjlt hvlt hlt15
    rw [try_increment_pos s hash i hsat, Nat.mod_eq_of_lt hov]
    have hlen : (s.m_table.set (get_table_index s hash i)
        (s.m_table.getD (get_table_index s hash i) 0 +
          2 ^ (4 * counter_nibble_index hash i))).length = s.m_table.length :=
      List.length_set s.m_table _ _
    refine ⟨hlen, rfl, ⟨by rw [hlen]; exact hwf.1, ?_⟩, ?_, ?_, ?_⟩
    · intro v hv
      rcases List.mem_or_eq_of_mem_set hv with hmem | heq
      · exact hwf.2 v hmem
      · rw [heq]
        exact hov
    · intro _
      refine ⟨rfl, ?_⟩
      show get_count { s with
          m_table := s.m_table.set (get_table_index s hash i)
            (s.m_table.getD (get_table_index s hash i) 0 +
              2 ^ (4 * counter_nibble_index hash i)) } hash i = get_count s hash i + 1
      rw [get_count_table s _ hlen hash i, getD_set_self s.m_table _ _ hidxlt, hcount]
      exact hinc
    · intro h15
      rw [hcount] at h15
      exact absurd h15 hsat
    · intro a b hab
      show nibble ((s.m_table.set (get_table_index s hash i)
          (s.m_table.getD (get_table_index s hash i) 0 +
            2 ^ (4 * counter_nibble_index hash i))).getD a 0) b =
        nibble (s.m_table.getD a 0) b
      rcases eq_or_ne a (get_table_index s hash i) with heq | hne
      · subst heq
        rw [getD_set_self s.m_table _ _ hidxlt]
        have hbne : b ≠ counter_nibble_index hash i := by
          rcases hab with h | h
          · exact absurd rfl h
          · exact h
        exact hframe b hbne
      · rw [getD_set_ne s.m_table _ a _ (Ne.symm hne)]

/-! ## The four-counter increment loop -/

theorem try_increment_false1 (s : FrequencySketch) (hash i : Nat)
    (h : (try_increment_at s hash i).2 = false) : (try_increment_at s hash i).1 = s := by
  by_cases hsat : nibble (s.m_table.getD (get_table_index s hash i) 0)
      (counter_nibble_index hash i) = 15
  · rw [try_increment_neg s hash i hsat]
  · rw [try_increment_pos s hash i hsat] at h
    simp at h

theorem try_increment_len_size (s : FrequencySketch) (hash i : Nat) :
    (try_increment_at s hash i).1.m_table.length = s.m_table.length ∧
    (try_increment_at s hash i).1.m_size = s.m_size := by
  by_cases hsat : nibble (s.m_table.getD (get_table_index s hash i) 0)
      (counter_nibble_index hash i) = 15
  · rw [try_increment_neg s hash i hsat]
    exact ⟨rfl, rfl⟩
  · rw [try_increment_pos s hash i hsat]
    exact ⟨List.length_set _ _ _, rfl⟩

theorem try_increment_frame_count (s : FrequencySketch) (hash i i' : Nat) (hwf : WF s)
    (hi : i < 4) (hne : i' ≠ i) :
    get_count (try_increment_at s hash i).1 hash i' = get_count s hash i' := by
  obtain ⟨hlen, -, -, -, -, hframe⟩ := try_increment_spec s hash i hwf hi
  rw [get_count_eq_nibble, get_count_eq_nibble,
    get_table_index_congr s (try_increment_at s hash i).1 hash i' hlen]
  refine hframe _ _ (Or.inr ?_)
  unfold counter_nibble_index
  omega

theorem try_increment_mono (s : FrequencySketch) (hash i : Nat) (hwf : WF s) (hi : i < 4) :
    ∀ a b, nibble (s.m_table.getD a 0) b ≤
      nibble ((try_increment_at s hash i).1.m_table.getD a 0) b := by
  intro a b
  have hjlt : counter_nibble_index hash i < 16 := counter_nibble_index_lt hash i hi
  have hidxlt : get_table_index s hash i < s.m_table.length := get_table_index_lt s hash i hwf.1
  have hvlt : s.m_table.getD (get_table_index s hash i) 0 < 2 ^ 64 := WF_slot_lt s hwf _
  by_cases hsat : nibble (s.m_table.getD (get_table_index s hash i) 0)
      (counter_nibble_index hash i) = 15
  · rw [try_increment_neg s hash i hsat]
  · have hlt15 : nibble (s.m_table.getD (get_table_index s hash i) 0)
        (counter_nibble_index hash i) < 15 := by
      have := nibble_lt (s.m_table.getD (get_table_index s hash i) 0)
        (counter_nibble_index hash i)
      omega
    obtain ⟨hov, hinc, hframe⟩ := nibble_add_pow _ _ hjlt hvlt hlt15
    rw [try_increment_pos s hash i hsat, Nat.mod_eq_of_lt hov]
    show nibble (s.m_table.getD a 0) b ≤
      nibble ((s.m_table.set (get_table_index s hash i)
        (s.m_table.getD (get_table_index s hash i) 0 +
          2 ^ (4 * counter_nibble_index hash i))).getD a 0) b
    rcases eq_or_ne a (get_table_index s hash i) with heq | hne
    · subst heq
      rw [getD_set_self s.m_table _ _ hidxlt]
      rcases eq_or_ne b (counter_nibble_index hash i) with heqb | hneb
      · subst heqb
        omega
      · rw [hframe b hneb]
    · rw [getD_set_ne s.m_table _ a _ (Ne.symm hne)]

theorem try_increment_WF (s : FrequencySketch) (hash i : Nat) (hwf : WF s) :
    WF (try_increment_at s hash i).1 := by
  by_cases hsat : nibble (s.m_table.getD (get_table_index s hash i) 0)
      (counter_nibble_index hash i) = 15
  · rw [try_increment_neg s hash i hsat]
    exact hwf
  · rw [try_increment_pos s hash i hsat]
    refine ⟨by rw [List.length_set]; exact hwf.1, ?_⟩
    intro v hv
    rcases List.mem_or_eq_of_mem_set hv with hmem | heq
    · exact hwf.2 v hmem
    · rw [heq]
      exact Nat.mod_lt _ (by norm_num)

theorem increment_all_len_size (s : FrequencySketch) (hash : Nat) :
    (increment_all s hash).1.m_table.length = s.m_table.length ∧
    (increment_all s hash).1.m_size = s.m_size := by
  simp only [increment_all]
  obtain ⟨l0, z0⟩ := try_increment_len_size s hash 0
  obtain ⟨l1, z1⟩ := try_increment_len_size (try_increment_at s hash 0).1 hash 1
  obtain ⟨l2, z2⟩ :=
    try_increment_len_size (try_increment_at (try_increment_at s hash 0).1 hash 1).1 hash 2
  obtain ⟨l3, z3⟩ := try_increment_len_size (try_increment_at
    (try_increment_at (try_increment_at s hash 0).1 hash 1).1 hash 2).1 hash 3
  exact ⟨by rw [l3, l2, l1, l0], by rw [z3, z2, z1, z0]⟩

theorem increment_all_WF (s : FrequencySketch) (hash : Nat) (hwf : WF s) :
    WF (increment_all s hash).1 := by
  simp only [increment_all]
  exact try_increment_WF _ hash 3 (try_increment_WF _ hash 2
    (try_increment_WF _ hash 1 (try_increment_WF _ hash 0 hwf)))

theorem increment_all_false (s : FrequencySketch) (hash : Nat)
    (h : (increment_all s hash).2 = false) : (increment_all s hash).1 = s := by
  simp only [increment_all, Bool.or_eq_false_iff] at h ⊢
  obtain ⟨⟨⟨h0, h1⟩, h2⟩, h3⟩ := h
  have e0 : (try_increment_at s hash 0).1 = s := try_increment_false1 _ _ _ h0
  rw [e0] at h1 h2 h3 ⊢
  have e1 : (try_increment_at s hash 1).1 = s := try_increment_false1 _ _ _ h1
  rw [e1] at h2 h3 ⊢
  have e2 : (try_increment_at s hash 2).1 = s := try_increment_false1 _ _ _ h2
  rw [e2] at h3 ⊢
  exact try_increment_false1 _ _ _ h3

theorem increment_all_mono (s : FrequencySketch) (hash : Nat) (hwf : WF s) :
    ∀ a b, nibble (s.m_table.getD a 0) b ≤
      nibble ((increment_all s hash).1.m_table.getD a 0) b := by
  intro a b
  have w1 := try_increment_WF s hash 0 hwf
  have w2 := try_increment_WF _ hash 1 w1
  have w3 := try_increment_WF _ hash 2 w2
  calc nibble (s.m_table.getD a 0) b
      ≤ nibble ((try_increment_at s hash 0).1.m_table.getD a 0) b :=
        try_increment_mono s hash 0 hwf (by norm_num) a b
    _ ≤ nibble ((try_increment_at (try_increment_at s hash 0).1 hash 1).1.m_table.getD a 0) b :=
        try_increment_mono _ hash 1 w1 (by norm_num) a b
    _ ≤ nibble ((try_increment_at (try_increment_at
          (try_increment_at s hash 0).1 hash 1).1 hash 2).1.m_table.getD a 0) b :=
        try_increment_mono _ hash 2 w2 (by norm_num) a b
    _ ≤ nibble ((increment_all s hash).1.m_table.getD a 0) b :=
        try_increment_mono _ hash 3 w3 (by norm_num) a b

theorem increment_all_spec (s : FrequencySketch) (hash : Nat) (hwf : WF s)
    (hc : ∀ i, i < 4 → get_count s hash i < 15) :
    (increment_all s hash).2 = true ∧
    (increment_all s hash).1.m_table.length = s.m_table.length ∧
    (increment_all s hash).1.m_size = s.m_size ∧
    WF (increment_all s hash).1 ∧
    ∀ i, i < 4 → get_count (increment_all s hash).1 hash i = get_count s hash i + 1 := by
  have w1 := try_increment_WF s hash 0 hwf
  have w2 := try_increment_WF _ hash 1 w1
  have w3 := try_increment_WF _ hash 2 w2
  obtain ⟨-, -, -, pos0, -, -⟩ := try_increment_spec s hash 0 hwf (by norm_num)
  obtain ⟨hb0, hcnt0⟩ := pos0 (hc 0 (by norm_num))
  have f01 := try_increment_frame_count s hash 0 1 hwf (by norm_num) (by norm_num)
  have f02 := try_increment_frame_count s hash 0 2 hwf (by norm_num) (by norm_num)
  have f03 := try_increment_frame_count s hash 0 3 hwf (by norm_num) (by norm_num)
  obtain ⟨-, -, -, pos1, -, -⟩ := try_increment_spec _ hash 1 w1 (by norm_num)
  obtain ⟨hb1, hcnt1⟩ := pos1 (by rw [f01]; exact hc 1 (by norm_num))
  have f10 := try_increment_frame_count _ hash 1 0 w1 (by norm_num) (by norm_num)
  have f12 := try_increment_frame_count _ hash 1 2 w1 (by norm_num) (by norm_num)
  have f13 := try_increment_frame_count _ hash 1 3 w1 (by norm_num) (by norm_num)
  obtain ⟨-, -, -, pos2, -, -⟩ := try_increment_spec _ hash 2 w2 (by norm_num)
  obtain ⟨hb2, hcnt2⟩ := pos2 (by rw [f12, f02]; exact hc 2 (by norm_num))
  have f20 := try_increment_frame_count _ hash 2 0 w2 (by norm_num) (by norm_num)
  have f21 := try_increment_frame_count _ hash 2 1 w2 (by norm_num) (by norm_num)
  have f23 := try_increment_frame_count _ hash 2 3 w2 (by norm_num) (by norm_num)
  obtain ⟨-, -, -, pos3, -, -⟩ := try_increment_spec _ hash 3 w3 (by norm_num)
  obtain ⟨hb3, hcnt3⟩ := pos3 (by rw [f23, f13, f03]; exact hc 3 (by norm_num))
  have f30 := try_increment_frame_count _ hash 3 0 w3 (by norm_num) (by norm_num)
  have f31 := try_increment_frame_count _ hash 3 1 w3 (by norm_num) (by norm_num)
  have f32 := try_increment_frame_count _ hash 3 2 w3 (by norm_num) (by norm_num)
  refine ⟨?_, (increment_all_len_size s hash).1, (increment_all_len_size s hash).2,
    increment_all_WF s hash hwf, ?_⟩
  · show ((try_increment_at s hash 0).2 || _ || _ || _) = true
    rw [hb0]
    simp
  · intro i hi
    interval_cases i
    · show get_count (try_increment_at _ hash 3).1 hash 0 = _
      rw [f30, f20, f10, hcnt0]
    · show get_count (try_increment_at _ hash 3).1 hash 1 = _
      rw [f31, f21, hcnt1, f01]
    · show get_count (try_increment_at _ hash 3).1 hash 2 = _
      rw [f32, hcnt2, f12, f02]
    · show get_count (try_increment_at _ hash 3).1 hash 3 = _
      rw [hcnt3, f23, f13, f03]

/-! ## `record_access`, `reset` and runs -/

theorem get_count_size_congr (s : FrequencySketch) (x hash i : Nat) :
    get_count { s with m_size := x } hash i = get_count s hash i := rfl

theorem get_frequency_size_congr (s : FrequencySketch) (x hash : Nat) :
    get_frequency { s with m_size := x } hash = get_frequency s hash := rfl

theorem record_access_eq_of_not_added (s : FrequencySketch) (hash : Nat)
    (h : (increment_all s hash).2 = false) : record_access s hash = s := by
  simp only [record_access]
  rw [if_neg (by simp [h])]
  exact increment_all_false s hash h

theorem sampling_cond_iff (s : FrequencySketch) (hash : Nat) :
    ({ (increment_all s hash).1 with
        m_size := (increment_all s hash).1.m_size + 1 } : FrequencySketch).m_size =
      get_sampling_size { (increment_all s hash).1 with
        m_size := (increment_all s hash).1.m_size + 1 } ↔
    s.m_size + 1 = s.m_table.length * 10 := by
  show (increment_all s hash).1.m_size + 1 = (increment_all s hash).1.m_table.length * 10 ↔ _
  rw [(increment_all_len_size s hash).1, (increment_all_len_size s hash).2]

theorem record_access_eq_of_added_no_reset (s : FrequencySketch) (hash : Nat)
    (hb : (increment_all s hash).2 = true)
    (hns : s.m_size + 1 ≠ s.m_table.length * 10) :
    record_access s hash = { (increment_all s hash).1 with m_size := s.m_size + 1 } := by
  simp only [record_access]
  rw [if_pos hb, if_neg (fun hc => hns ((sampling_cond_iff s hash).mp hc)),
    (increment_all_len_size s hash).2]

theorem record_access_eq_of_added_reset (s : FrequencySketch) (hash : Nat)
    (hb : (increment_all s hash).2 = true)
    (hs : s.m_size + 1 = s.m_table.length * 10) :
    record_access s hash = reset { (increment_all s hash).1 with m_size := s.m_size + 1 } := by
  simp only [record_access]
  rw [if_pos hb, if_pos ((sampling_cond_iff s hash).mpr hs),
    (increment_all_len_size s hash).2]

theorem triggers_reset_iff (s : FrequencySketch) (hash : Nat) :
    triggers_reset s hash = true ↔
      (increment_all s hash).2 = true ∧ s.m_size + 1 = s.m_table.length * 10 := by
  unfold triggers_reset get_sampling_size
  rw [Bool.and_eq_true, decide_eq_true_eq,
    (increment_all_len_size s hash).1, (increment_all_len_size s hash).2]

theorem reset_getD (s : FrequencySketch) (a : Nat) :
    (reset s).m_table.getD a 0 = halve (s.m_table.getD a 0) := by
  show (s.m_table.map halve).getD a 0 = halve (s.m_table.getD a 0)
  rw [show (0 : Nat) = halve 0 from rfl]
  exact List.getD_map s.m_table 0 halve

theorem reset_WF (s : FrequencySketch) (hwf : WF s) : WF (reset s) := by
  constructor
  · show 0 < (s.m_table.map halve).length
    rw [List.length_map]
    exact hwf.1
  · intro v hv
    rw [show (reset s).m_table = s.m_table.map halve from rfl, List.mem_map] at hv
    obtain ⟨w, -, hw⟩ := hv
    rw [← hw]
    unfold halve
    exact lt_of_le_of_lt Nat.and_le_right (by norm_num)

theorem record_access_WF (s : FrequencySketch) (hash : Nat) (hwf : WF s) :
    WF (record_access s hash) := by
  have hwf' := increment_all_WF s hash hwf
  by_cases hb : (increment_all s hash).2 = true
  · by_cases hs : s.m_size + 1 = s.m_table.length * 10
    · rw [record_access_eq_of_added_reset s hash hb hs]
      exact reset_WF _ ⟨hwf'.1, hwf'.2⟩
    · rw [record_access_eq_of_added_no_reset s hash hb hs]
      exact ⟨hwf'.1, hwf'.2⟩
  · rw [record_access_eq_of_not_added s hash (Bool.not_eq_true _ ▸ hb)]
    exact hwf

theorem run_accesses_succ (s : FrequencySketch) (hash k : Nat) :
    run_accesses s hash (k + 1) = record_access (run_accesses s hash k) hash := by
  induction k generalizing s with
  | zero => rfl
  | succ k ih =>
    show run_accesses (record_access s hash) hash (k + 1) = _
    rw [ih (record_access s hash)]
    rfl

theorem getD_replicate_zero (n a : Nat) : (List.replicate n (0 : Nat)).getD a 0 = 0 := by
  simp [List.getD_eq_getElem?_getD, List.getElem?_replicate]
  split <;> rfl

theorem nibble_zero (b : Nat) : nibble 0 b = 0 := by
  rw [nibble_eq]
  simp

theorem get_frequency_eq_min (s : FrequencySketch) (hash : Nat) :
    get_frequency s hash =
      min (min (min (get_count s hash 0) (get_count s hash 1)) (get_count s hash 2))
        (get_count s hash 3) := by
  simp only [get_frequency]
  have h0 := get_count_lt s hash 0
  omega

theorem get_frequency_le_15 (s : FrequencySketch) (hash : Nat) :
    get_frequency s hash ≤ 15 := by
  rw [get_frequency_eq_min]
  have h3 := get_count_lt s hash 3
  omega

/-- State after `k` accesses of a single element recorded into a fresh
table of `n` slots, for `k` below both the saturation limit and the
sampling threshold: the tally is `k` and all four addressed counters
read `k`. -/
theorem run_fresh_invariant (n hash : Nat) (hn : 0 < n) :
    ∀ k, k ≤ 15 → k < n * 10 →
    (run_accesses { m_table := List.replicate n 0, m_size := 0 } hash k).m_table.length = n ∧
    (run_accesses { m_table := List.replicate n 0, m_size := 0 } hash k).m_size = k ∧
    WF (run_accesses { m_table := List.replicate n 0, m_size := 0 } hash k) ∧
    ∀ i, i < 4 →
      get_count (run_accesses { m_table := List.replicate n 0, m_size := 0 } hash k) hash i = k := by
  intro k
  induction k with
  | zero =>
    intro _ _
    refine ⟨List.length_replicate n 0, rfl, ⟨?_, ?_⟩, ?_⟩
    · show 0 < (List.replicate n (0 : Nat)).length
      rw [List.length_replicate]
      exact hn
    · intro v hv
      rw [List.eq_of_mem_replicate hv]
      norm_num
    · intro i _
      rw [get_count_eq_nibble]
      show nibble ((List.replicate n (0 : Nat)).getD _ 0) _ = 0
      rw [getD_replicate_zero, nibble_zero]
  | succ k ih =>
    intro hk15 hkn
    obtain ⟨hlen, hsize, hwf, hcnt⟩ := ih (by omega) (by omega)
    have hclt : ∀ i, i < 4 →
        get_count (run_accesses { m_table := List.replicate n 0, m_size := 0 } hash k) hash i
          < 15 := by
      intro i hi
      rw [hcnt i hi]
      omega
    obtain ⟨hb, hlen', hsize', hwf', hcnt'⟩ :=
      increment_all_spec (run_accesses { m_table := List.replicate n 0, m_size := 0 } hash k)
        hash hwf hclt
    have hns : (run_accesses { m_table := List.replicate n 0, m_size := 0 } hash k).m_size + 1 ≠
        (run_accesses { m_table := List.replicate n 0, m_size := 0 } hash k).m_table.length
          * 10 := by
      rw [hsize, hlen]
      omega
    rw [run_accesses_succ, record_access_eq_of_added_no_reset _ hash hb hns]
    refine ⟨?_, ?_, ⟨?_, ?_⟩, ?_⟩
    · show (increment_all _ hash).1.m_table.length = n
      rw [hlen', hlen]
    · show (run_accesses { m_table := List.replicate n 0, m_size := 0 } hash k).m_size + 1 = k + 1
      rw [hsize]
    · show 0 < (increment_all _ hash).1.m_table.length
      rw [hlen', hlen]
      exact hn
    · exact hwf'.2
    · intro i hi
      rw [get_count_size_congr, hcnt' i hi, hcnt i hi]

/-! ## The nearest power of two and `vector_resize` -/

theorem pow2_minimal (n e : Nat) (hmin : ∀ e', e' < e → 2 ^ e' < n) :
    ∀ m, n ≤ 2 ^ m → 2 ^ e ≤ 2 ^ m := by
  intro m hm
  rcases Nat.lt_or_ge m e with hme | hme
  · have := hmin m hme
    omega
  · exact Nat.pow_le_pow_right (by norm_num) hme

theorem pow2_search_spec (n : Nat) :
    ∀ fuel e, n ≤ 2 ^ e * 2 ^ fuel → (∀ e', e' < e → 2 ^ e' < n) →
    (∃ k, pow2_search n fuel (2 ^ e) = 2 ^ k) ∧
    n ≤ pow2_search n fuel (2 ^ e) ∧
    ∀ m, n ≤ 2 ^ m → pow2_search n fuel (2 ^ e) ≤ 2 ^ m := by
  intro fuel
  induction fuel with
  | zero =>
    intro e hle hmin
    simp only [pow2_search]
    rw [pow_zero, mul_one] at hle
    exact ⟨⟨e, rfl⟩, hle, pow2_minimal n e hmin⟩
  | succ fuel ih =>
    intro e hle hmin
    simp only [pow2_search]
    by_cases hna : n ≤ 2 ^ e
    · rw [if_pos hna]
      exact ⟨⟨e, rfl⟩, hna, pow2_minimal n e hmin⟩
    · rw [if_neg hna, show 2 * 2 ^ e = 2 ^ (e + 1) by ring]
      refine ih (e + 1) ?_ ?_
      · have heq : 2 ^ (e + 1) * 2 ^ fuel = 2 ^ e * 2 ^ (fuel + 1) := by ring
        omega
      · intro e' h'
        rcases Nat.lt_succ_iff_lt_or_eq.mp h' with h | h
        · exact hmin e' h
        · subst h
          omega

theorem get_nearest_power_of_two_spec (n : Nat) (h2 : n ≤ 2 ^ 64) :
    IsNearestPow2 n (get_nearest_power_of_two n) := by
  have h := pow2_search_spec n 64 0 (by rw [pow_zero, one_mul]; exact h2)
    (fun e' h' => absurd h' (Nat.not_lt_zero e'))
  rw [pow_zero] at h
  exact h

theorem vector_resize_length (l : List Nat) (n : Nat) : (vector_resize l n).length = n := by
  unfold vector_resize
  rw [List.length_append, List.length_take, List.length_replicate]
  omega

/-- `std::vector::resize` keeps the retained prefix unchanged. -/
theorem vector_resize_getD_lt (l : List Nat) (n a : Nat) (ha : a < n) (hal : a < l.length) :
    (vector_resize l n).getD a 0 = l.getD a 0 := by
  unfold vector_resize
  rw [List.getD_append _ _ 0 a (by rw [List.length_take]; omega)]
  simp [List.getD_eq_getElem?_getD, List.getElem?_take, ha]

/-- `std::vector::resize` value-initialises (zeroes) appended slots. -/
theorem vector_resize_getD_ge (l : List Nat) (n a : Nat) (ha : l.length ≤ a) :
    (vector_resize l n).getD a 0 = 0 := by
  unfold vector_resize
  rw [List.getD_append_right _ _ 0 a (by rw [List.length_take]; omega)]
  simp only [List.getD_eq_getElem?_getD, List.getElem?_replicate]
  split <;> rfl

theorem vector_resize_WF (l : List Nat) (n : Nat) (hn : 0 < n)
    (hl : ∀ v ∈ l, v < 2 ^ 64) : WF { m_table := vector_resize l n, m_size := 0 } := by
  refine ⟨by rw [vector_resize_length]; exact hn, ?_⟩
  intro v hv
  rcases List.mem_append.mp hv with h | h
  · exact hl v (List.mem_of_mem_take h)
  · rw [List.eq_of_mem_replicate h]
    norm_num

/-! ## Traces of accesses -/

theorem record_access_size_no_reset (s : FrequencySketch) (hash : Nat)
    (h : triggers_reset s hash = false) :
    (record_access s hash).m_size =
      s.m_size + (if (increment_all s hash).2 then 1 else 0) := by
  have h' : ¬((increment_all s hash).2 = true ∧ s.m_size + 1 = s.m_table.length * 10) := by
    rw [← triggers_reset_iff, h]
    simp
  by_cases hb : (increment_all s hash).2 = true
  · have hns : s.m_size + 1 ≠ s.m_table.length * 10 := fun hc => h' ⟨hb, hc⟩
    rw [record_access_eq_of_added_no_reset s hash hb hns, hb]
    rfl
  · rw [record_access_eq_of_not_added s hash (by simpa using hb), if_neg hb]
    omega

/-- Along a trace with no aging pass, the tally advances by exactly the
number of successful calls. -/
theorem run_trace_size (s : FrequencySketch) (hs : List Nat)
    (hnr : trace_resets s hs = 0) :
    (run_trace s hs).m_size = s.m_size + count_successful s hs := by
  induction hs generalizing s with
  | nil => rfl
  | cons h t ih =>
    simp only [run_trace, count_successful, trace_resets] at hnr ⊢
    have ht : triggers_reset s h = false := by
      by_contra hb
      rw [Bool.not_eq_false] at hb
      rw [hb] at hnr
      simp at hnr
    rw [ht] at hnr
    simp only [if_neg (by simp : ¬(false = true))] at hnr
    rw [ih (record_access s h) (by omega), record_access_size_no_reset s h ht]
    omega

/-! ## Claims -/

/-- C1, counterexample: construct a sketch of capacity 1, record the element
with hash 0 once (its frequency becomes 1), then call `change_capacity(1)`.
`std::vector::resize` keeps the existing slot, so after the call the
previously-recorded element still has `get_frequency` 1, not 0, and the
table's counters are not all zero. -/
theorem c1_counterexample :
    FrequencySketch.init 1 = Except.ok { m_table := [0], m_size := 0 } ∧
    record_access { m_table := [0], m_size := 0 } 0 = { m_table := [0x1111], m_size := 1 } ∧
    change_capacity { m_table := [0x1111], m_size := 1 } 1 =
      Except.ok { m_table := [0x1111], m_size := 0 } ∧
    get_frequency { m_table := [0x1111], m_size := 0 } 0 = 1 :=
  ⟨rfl, by decide, rfl, by decide⟩

/-- C1 (amended): for every sketch state and every positive capacity (in
`int` range), `change_capacity` sets the table length to the nearest power
of two ≥ capacity and resets the access tally to 0; slots appended beyond
the old table length are zero, but the retained prefix of the old table
keeps its counter values (so a previously recorded element's
`get_frequency` may remain nonzero after the call). -/
theorem c1_change_capacity_amended (s : FrequencySketch) (capacity : Int)
    (h1 : 0 < capacity) (h2 : capacity ≤ 2 ^ 31 - 1) :
    ∃ s', change_capacity s capacity = Except.ok s' ∧
      s'.m_table.length = get_nearest_power_of_two capacity.toNat ∧
      IsNearestPow2 capacity.toNat s'.m_table.length ∧
      s'.m_size = 0 ∧
      (∀ a, a < s.m_table.length → a < s'.m_table.length →
        s'.m_table.getD a 0 = s.m_table.getD a 0) ∧
      (∀ a, s.m_table.length ≤ a → s'.m_table.getD a 0 = 0) := by
  have hok : change_capacity s capacity =
      Except.ok { m_table := vector_resize s.m_table (get_nearest_power_of_two capacity.toNat), m_size := 0 } := by
    unfold change_capacity
    rw [if_neg (by omega)]
  refine ⟨_, hok, ?_, ?_, rfl, ?_, ?_⟩
  · exact vector_resize_length _ _
  · show IsNearestPow2 capacity.toNat
      (vector_resize s.m_table (get_nearest_power_of_two capacity.toNat)).length
    rw [vector_resize_length]
    exact get_nearest_power_of_two_spec capacity.toNat (by omega)
  · intro a ha ha'
    have ha2 : a < (vector_resize s.m_table (get_nearest_power_of_two capacity.toNat)).length :=
      ha'
    rw [vector_resize_length] at ha2
    exact vector_resize_getD_lt s.m_table _ a ha2 ha
  · intro a ha
    exact vector_resize_getD_ge s.m_table _ a ha

/-- C1 witness: the amended statement applied to the sketch `⟨[3], 2⟩` and
capacity 3 (table length becomes 4, the old slot value 3 is retained). -/
theorem c1_change_capacity_amended_witness :
    ∃ s', change_capacity { m_table := [3], m_size := 2 } 3 = Except.ok s' ∧
      s'.m_table.length = get_nearest_power_of_two (3 : Int).toNat ∧
      IsNearestPow2 (3 : Int).toNat s'.m_table.length ∧
      s'.m_size = 0 ∧
      (∀ a, a < ({ m_table := [3], m_size := 2 } : FrequencySketch).m_table.length →
        a < s'.m_table.length →
        s'.m_table.getD a 0 =
          ({ m_table := [3], m_size := 2 } : FrequencySketch).m_table.getD a 0) ∧
      (∀ a, ({ m_table := [3], m_size := 2 } : FrequencySketch).m_table.length ≤ a →
        s'.m_table.getD a 0 = 0) :=
  c1_change_capacity_amended { m_table := [3], m_size := 2 } 3 (by norm_num) (by norm_num)

/-- C2, counterexample: table length 1, sampling size 10. The 10th
successful access triggers the first aging pass and leaves the tally at 5;
accesses 11–14 raise it back to 9 and the 15th access triggers the second
pass — i.e. only 5 successful increments after the previous pass, not
`table_length × 10 = 10` as the claim states for "since the last aging
pass". -/
theorem c2_counterexample :
    triggers_reset (run_accesses { m_table := [0], m_size := 0 } 0 9) 0 = true ∧
    (run_accesses { m_table := [0], m_size := 0 } 0 10).m_size = 5 ∧
    (run_accesses { m_table := [0], m_size := 0 } 0 14).m_size = 9 ∧
    triggers_reset (run_accesses { m_table := [0], m_size := 0 } 0 14) 0 = true := by decide

/-- C2 (amended): a `record_access` call runs the aging pass exactly when
some counter was incremented and the incremented tally equals
`table_length × 10`; the tally is incremented iff at least one of the 4
counters was incremented; a pass halves the tally to `table_length × 5`
(so after a pass only `table_length × 5` further successful increments
are needed, while `table_length × 10` are needed from construction); and
along any reset-free trace the tally advances by exactly the number of
successful calls. -/
theorem c2_record_access_amended (s : FrequencySketch) (hash : Nat) (hs : List Nat) :
    (triggers_reset s hash = true ↔
      (increment_all s hash).2 = true ∧ s.m_size + 1 = s.m_table.length * 10) ∧
    (triggers_reset s hash = false →
      (record_access s hash).m_size =
        s.m_size + (if (increment_all s hash).2 then 1 else 0)) ∧
    (triggers_reset s hash = true →
      record_access s hash =
        reset { (increment_all s hash).1 with m_size := s.m_size + 1 } ∧
      (record_access s hash).m_size = s.m_table.length * 5) ∧
    (trace_resets s hs = 0 →
      (run_trace s hs).m_size = s.m_size + count_successful s hs) := by
  refine ⟨triggers_reset_iff s hash, record_access_size_no_reset s hash, ?_, run_trace_size s hs⟩
  intro htr
  obtain ⟨hb, hcond⟩ := (triggers_reset_iff s hash).mp htr
  have heq := record_access_eq_of_added_reset s hash hb hcond
  refine ⟨heq, ?_⟩
  rw [heq]
  show (s.m_size + 1) / 2 = s.m_table.length * 5
  omega

/-- C2 witness: in the one-slot sketch with tally 9 the next access
triggers a pass and leaves the tally at `1 × 5 = 5`. -/
theorem c2_record_access_amended_witness :
    record_access { m_table := [0], m_size := 9 } 0 =
      reset { (increment_all { m_table := [0], m_size := 9 } 0).1 with m_size := 10 } ∧
    (record_access { m_table := [0], m_size := 9 } 0).m_size =
      ({ m_table := [0], m_size := 9 } : FrequencySketch).m_table.length * 5 :=
  (c2_record_access_amended { m_table := [0], m_size := 9 } 0 []).2.2.1 (by decide)

/-- C3: `get_frequency` is the minimum of the four addressed 4-bit counter
values, it is a pure function (it returns a value and leaves the sketch
untouched by construction), it never exceeds 15 in any state, and `has` is
`get_frequency > 0`. -/
theorem c3_get_frequency_min (s : FrequencySketch) (hash : Nat) :
    get_frequency s hash =
      min (min (min (get_count s hash 0) (get_count s hash 1)) (get_count s hash 2))
        (get_count s hash 3) ∧
    get_frequency s hash ≤ 15 ∧
    (FrequencySketch.has s hash = true ↔ 0 < get_frequency s hash) := by
  refine ⟨get_frequency_eq_min s hash, get_frequency_le_15 s hash, ?_⟩
  unfold FrequencySketch.has
  simp

/-- C4: one aging pass divides every one of the sixteen 4-bit counters of
every slot by two (rounding down, no bit leaking between counters), and
halves the access tally by integer division, keeping the table length. -/
theorem c4_reset_halves (s : FrequencySketch) (i j : Nat) (hj : j < 16) :
    (∀ v : Nat, v < 2 ^ 64 → nibble (halve v) j = nibble v j / 2) ∧
    nibble ((reset s).m_table.getD i 0) j = nibble (s.m_table.getD i 0) j / 2 ∧
    (reset s).m_size = s.m_size / 2 ∧
    (reset s).m_table.length = s.m_table.length := by
  refine ⟨fun v _ => nibble_halve v j hj, ?_, rfl, ?_⟩
  · rw [reset_getD, nibble_halve _ _ hj]
  · show (s.m_table.map halve).length = s.m_table.length
    rw [List.length_map]

/-- C4 witness: the aging-pass statement applied to a concrete one-slot
sketch and counter 0. -/
theorem c4_reset_halves_witness :
    (∀ v : Nat, v < 2 ^ 64 →
      nibble (halve v) 0 = nibble v 0 / 2) ∧
    nibble ((reset { m_table := [0x37], m_size := 9 }).m_table.getD 0 0) 0 =
      nibble (({ m_table := [0x37], m_size := 9 } : FrequencySketch).m_table.getD 0 0) 0 / 2 ∧
    (reset { m_table := [0x37], m_size := 9 }).m_size =
      ({ m_table := [0x37], m_size := 9 } : FrequencySketch).m_size / 2 ∧
    (reset { m_table := [0x37], m_size := 9 }).m_table.length =
      ({ m_table := [0x37], m_size := 9 } : FrequencySketch).m_table.length :=
  c4_reset_halves { m_table := [0x37], m_size := 9 } 0 0 (by norm_num)

/-- C5: for each of the four addressed counters, `try_increment_at`
increments the 4-bit counter by exactly one when it is below 15 and
reports `true`; when the counter is already 15 it leaves the whole state
unchanged and reports `false`; and `record_access` is total and keeps the
sketch well-formed for every input (no failure). -/
theorem c5_saturating_increment (s : FrequencySketch) (hash i : Nat)
    (hwf : WF s) (hi : i < 4) :
    (get_count s hash i < 15 →
      (try_increment_at s hash i).2 = true ∧
      get_count (try_increment_at s hash i).1 hash i = get_count s hash i + 1) ∧
    (get_count s hash i = 15 → try_increment_at s hash i = (s, false)) ∧
    WF (record_access s hash) := by
  obtain ⟨-, -, -, pos, sat, -⟩ := try_increment_spec s hash i hwf hi
  exact ⟨pos, sat, record_access_WF s hash hwf⟩

/-- C5 witness: the saturating-increment statement at the fresh one-slot
sketch, hash 0, counter 0 (the counter is 0 < 15 and becomes 1). -/
theorem c5_saturating_increment_witness :
    (get_count { m_table := [0], m_size := 0 } 0 0 < 15 →
      (try_increment_at { m_table := [0], m_size := 0 } 0 0).2 = true ∧
      get_count (try_increment_at { m_table := [0], m_size := 0 } 0 0).1 0 0 =
        get_count { m_table := [0], m_size := 0 } 0 0 + 1) ∧
    (get_count { m_table := [0], m_size := 0 } 0 0 = 15 →
      try_increment_at { m_table := [0], m_size := 0 } 0 0 =
        ({ m_table := [0], m_size := 0 }, false)) ∧
    WF (record_access { m_table := [0], m_size := 0 } 0) :=
  c5_saturating_increment { m_table := [0], m_size := 0 } 0 0
    ⟨by norm_num, by decide⟩ (by norm_num)

/-- C6: starting from a fresh table of `n` slots, recording the same
element `k ≤ 15` times (with `k` below the sampling threshold, so no aging
pass triggers, and nothing else recorded) makes `get_frequency` of that
element exactly `k`. -/
theorem c6_fresh_k_accesses (n hash k : Nat) (hn : 0 < n) (hk : k ≤ 15)
    (hkn : k < n * 10) :
    get_frequency (run_accesses { m_table := List.replicate n 0, m_size := 0 } hash k) hash
      = k := by
  obtain ⟨-, -, -, hcnt⟩ := run_fresh_invariant n hash hn k hk hkn
  rw [get_frequency_eq_min, hcnt 0 (by norm_num), hcnt 1 (by norm_num),
    hcnt 2 (by norm_num), hcnt 3 (by norm_num)]
  omega

/-- C6 witness: five accesses of hash 0 into a fresh one-slot table give
frequency 5. -/
theorem c6_fresh_k_accesses_witness :
    get_frequency (run_accesses { m_table := List.replicate 1 0, m_size := 0 } 0 5) 0 = 5 :=
  c6_fresh_k_accesses 1 0 5 (by norm_num) (by norm_num) (by norm_num)

/-- C7: when the call does not trigger an aging pass, recording any
element `h'` never decreases the frequency estimate of any element `h`. -/
theorem c7_no_aging_monotone (s : FrequencySketch) (h h' : Nat) (hwf : WF s)
    (hnr : triggers_reset s h' = false) :
    get_frequency s h ≤ get_frequency (record_access s h') h := by
  have hmono := increment_all_mono s h' hwf
  have hlen := (increment_all_len_size s h').1
  have hcnt : ∀ i : Nat, get_count s h i ≤ get_count (increment_all s h').1 h i := by
    intro i
    rw [get_count_eq_nibble, get_count_eq_nibble,
      get_table_index_congr s (increment_all s h').1 h i hlen]
    exact hmono _ _
  have hfreq : get_frequency s h ≤ get_frequency (increment_all s h').1 h := by
    rw [get_frequency_eq_min, get_frequency_eq_min]
    have h0 := hcnt 0
    have h1 := hcnt 1
    have h2 := hcnt 2
    have h3 := hcnt 3
    omega
  by_cases hb : (increment_all s h').2 = true
  · have hcond : ¬((increment_all s h').2 = true ∧ s.m_size + 1 = s.m_table.length * 10) := by
      rw [← triggers_reset_iff, hnr]
      simp
    have hns : s.m_size + 1 ≠ s.m_table.length * 10 := fun hc => hcond ⟨hb, hc⟩
    rw [record_access_eq_of_added_no_reset s h' hb hns, get_frequency_size_congr]
    exact hfreq
  · rw [record_access_eq_of_not_added s h' (by simpa using hb)]

/-- C7 witness: monotonicity at the fresh one-slot sketch with both
elements of hash 0. -/
theorem c7_no_aging_monotone_witness :
    get_frequency { m_table := [0], m_size := 0 } 0 ≤
      get_frequency (record_access { m_table := [0], m_size := 0 } 0) 0 :=
  c7_no_aging_monotone { m_table := [0], m_size := 0 } 0 0
    ⟨by norm_num, by decide⟩ (by decide)

/-- C8: construction and `change_capacity` fail (with the
invalid-argument error) exactly when the requested capacity is ≤ 0; for
every positive capacity (in `int` range) a successful call produces a
table whose length is the smallest power of two ≥ the capacity; in
particular `change_capacity(10)` always produces a table of 16 slots. -/
theorem c8_capacity_errors (s : FrequencySketch) (capacity : Int) :
    ((∃ e, change_capacity s capacity = Except.error e) ↔ capacity ≤ 0) ∧
    ((∃ e, FrequencySketch.init capacity = Except.error e) ↔ capacity ≤ 0) ∧
    (0 < capacity → capacity ≤ 2 ^ 31 - 1 →
      ∀ s', change_capacity s capacity = Except.ok s' →
        IsNearestPow2 capacity.toNat s'.m_table.length) ∧
    (∀ s', change_capacity s 10 = Except.ok s' → s'.m_table.length = 16) := by
  have herr : ∀ t : FrequencySketch, ∀ c : Int,
      ((∃ e, change_capacity t c = Except.error e) ↔ c ≤ 0) := by
    intro t c
    constructor
    · rintro ⟨e, he⟩
      by_contra hpos
      unfold change_capacity at he
      rw [if_neg hpos] at he
      cases he
    · intro hle
      exact ⟨_, by unfold change_capacity; rw [if_pos hle]⟩
  refine ⟨herr s capacity, herr _ capacity, ?_, ?_⟩
  · intro hpos hbound s' h
    unfold change_capacity at h
    rw [if_neg (by omega)] at h
    injection h with h
    rw [← h]
    show IsNearestPow2 capacity.toNat
      (vector_resize s.m_table (get_nearest_power_of_two capacity.toNat)).length
    rw [vector_resize_length]
    exact get_nearest_power_of_two_spec capacity.toNat (by omega)
  · intro s' h
    unfold change_capacity at h
    rw [if_neg (by norm_num)] at h
    injection h with h
    rw [← h]
    show (vector_resize s.m_table (get_nearest_power_of_two (10 : Int).toNat)).length = 16
    rw [vector_resize_length]
    decide

/-- C8 witness: capacity −3 errors for both the constructor and
`change_capacity`; resizing the empty sketch to the non-power-of-two
capacity 10 gives the smallest power of two ≥ 10, namely 16 slots. -/
theorem c8_capacity_errors_witness :
    (∃ e, change_capacity { m_table := [], m_size := 0 } (-3) = Except.error e) ∧
    (∃ e, FrequencySketch.init (-3) = Except.error e) ∧
    IsNearestPow2 (10 : Int).toNat 16 ∧
    (∀ s', change_capacity { m_table := [], m_size := 0 } 10 = Except.ok s' →
      s'.m_table.length = 16) :=
  ⟨(c8_capacity_errors { m_table := [], m_size := 0 } (-3)).1.mpr (by norm_num),
   (c8_capacity_errors { m_table := [], m_size := 0 } (-3)).2.1.mpr (by norm_num),
   (c8_capacity_errors { m_table := [], m_size := 0 } 10).2.2.1 (by norm_num) (by norm_num)
     _ rfl,
   (c8_capacity_errors { m_table := [], m_size := 0 } 10).2.2.2⟩

/-- C9: `change_capacity` with capacity ≤ 0 throws before mutating
anything: the caller-observable state after the failed call is exactly the
state before it, so every `get_frequency` result is unchanged. -/
theorem c9_failed_resize_no_mutation (s : FrequencySketch) (capacity : Int)
    (hc : capacity ≤ 0) :
    change_capacity_run s capacity = (s, true) ∧
    ∀ hash, get_frequency (change_capacity_run s capacity).1 hash = get_frequency s hash := by
  have h : change_capacity_run s capacity = (s, true) := by
    unfold change_capacity_run change_capacity
    rw [if_pos hc]
  exact ⟨h, fun hash => by rw [h]⟩

/-- C9 witness: the failed call `change_capacity(0)` on the sketch
`⟨[5], 2⟩` leaves it untouched. -/
theorem c9_failed_resize_no_mutation_witness :
    change_capacity_run { m_table := [5], m_size := 2 } 0 =
      ({ m_table := [5], m_size := 2 }, true) ∧
    ∀ hash, get_frequency (change_capacity_run { m_table := [5], m_size := 2 } 0).1 hash =
      get_frequency { m_table := [5], m_size := 2 } hash :=
  c9_failed_resize_no_mutation { m_table := [5], m_size := 2 } 0 (by norm_num)

/-- C10: a successful single-counter increment raises the addressed 4-bit
counter by exactly one and changes no other 4-bit counter — neither in the
same slot (the below-15 guard prevents any carry) nor in any other slot —
and leaves the tally unchanged. -/
theorem c10_increment_frame (s : FrequencySketch) (hash i : Nat) (hwf : WF s) (hi : i < 4)
    (hsucc : (try_increment_at s hash i).2 = true) :
    get_count (try_increment_at s hash i).1 hash i = get_count s hash i + 1 ∧
    (∀ a b, a ≠ get_table_index s hash i ∨ b ≠ counter_nibble_index hash i →
      nibble ((try_increment_at s hash i).1.m_table.getD a 0) b =
        nibble (s.m_table.getD a 0) b) ∧
    (try_increment_at s hash i).1.m_size = s.m_size := by
  obtain ⟨-, hsize, -, pos, sat, hframe⟩ := try_increment_spec s hash i hwf hi
  have hlt : get_count s hash i < 15 := by
    rcases Nat.lt_or_ge (get_count s hash i) 15 with h | h
    · exact h
    · have h15 : get_count s hash i = 15 := by
        have := get_count_lt s hash i
        omega
      rw [sat h15] at hsucc
      simp at hsucc
  exact ⟨(pos hlt).2, hframe, hsize⟩

/-- C10 witness: the frame statement at the fresh one-slot sketch, hash 0,
counter 0 (the increment succeeds there). -/
theorem c10_increment_frame_witness :
    get_count (try_increment_at { m_table := [0], m_size := 0 } 0 0).1 0 0 =
      get_count { m_table := [0], m_size := 0 } 0 0 + 1 ∧
    (∀ a b, a ≠ get_table_index { m_table := [0], m_size := 0 } 0 0 ∨
        b ≠ counter_nibble_index 0 0 →
      nibble ((try_increment_at { m_table := [0], m_size := 0 } 0 0).1.m_table.getD a 0) b =
        nibble (({ m_table := [0], m_size := 0 } : FrequencySketch).m_table.getD a 0) b) ∧
    (try_increment_at { m_table := [0], m_size := 0 } 0 0).1.m_size =
      ({ m_table := [0], m_size := 0 } : FrequencySketch).m_size :=
  c10_increment_frame { m_table := [0], m_size := 0 } 0 0
    ⟨by norm_num, by decide⟩ (by norm_num) (by decide)

